import Mathlib

/-!
Verification of the almaqso unit-pipeline orchestrator.

The Python sources are shallowly embedded: Python strings become `List Char`,
Python string builtins (`strip`, `split`, `replace`, `int`, membership) become
the `py*` functions below, and the stateful orchestration code of
`almaqso/almaqso.py` becomes explicit functions over an environment record
describing the outcome of each external CASA invocation.
-/

namespace Almaqso

/-! ## Python string primitives -/

/-- The characters stripped by Python `str.strip()` (ASCII whitespace). -/
def pyIsSpace (c : Char) : Bool :=
  c = ' ' || c = '\t' || c = '\n' || c = '\r' || c = '\x0b' || c = '\x0c'

/-- Python `str.strip()`. -/
def pyStrip (l : List Char) : List Char :=
  ((l.dropWhile pyIsSpace).reverse.dropWhile pyIsSpace).reverse

/-- Python `str.split(sep)` for a one-character separator: splits at every
occurrence, keeping empty chunks (`"".split(",") == [""]`). -/
def pySplitChar (sep : Char) : List Char → List (List Char)
  | [] => [[]]
  | c :: rest =>
    if c = sep then [] :: pySplitChar sep rest
    else
      match pySplitChar sep rest with
      | [] => [[c]]
      | h :: t => (c :: h) :: t

/-- Python `str.split(sep)` for a multi-character separator (non-overlapping,
left-to-right), fuelled by the input length. Only called with non-empty
separators, as in the source. -/
def pySplitOnFuel (pat : List Char) : Nat → List Char → List Char → List (List Char)
  | 0, l, acc => [acc.reverse ++ l]
  | fuel + 1, l, acc =>
    match l with
    | [] => [acc.reverse]
    | c :: rest =>
      if pat.isPrefixOf (c :: rest) then
        acc.reverse :: pySplitOnFuel pat fuel (List.drop (pat.length - 1) rest) []
      else
        pySplitOnFuel pat fuel rest (c :: acc)

/-- Python `str.split(sep)` for a multi-character separator. -/
def pySplitOn (pat l : List Char) : List (List Char) :=
  pySplitOnFuel pat (l.length + 1) l []

/-- Python `str.replace(pat, repl)`: split on `pat`, re-join with `repl`. -/
def pyReplace (pat repl l : List Char) : List Char :=
  List.intercalate repl (pySplitOn pat l)

/-- ASCII decimal digit test. -/
def pyDigit (c : Char) : Bool := '0' ≤ c && c ≤ '9'

/-- Numeric value of a list of ASCII digits (most significant first). -/
def digitsValNat (l : List Char) : Nat :=
  l.foldl (fun a c => a * 10 + (c.toNat - ('0').toNat)) 0

/-- After the first digit, Python `int()` accepts digits with single
underscores between digit groups; the flag records whether the previous
character was an underscore (no doubled, leading-here or trailing ones). -/
def pyDigitsTailAux : List Char → Bool → Bool
  | [], lastUnd => !lastUnd
  | c :: rest, lastUnd =>
    if c = '_' then !lastUnd && pyDigitsTailAux rest true
    else pyDigit c && pyDigitsTailAux rest false

/-- The digits-and-underscores tail accepted by Python `int()` after the
first digit. -/
def pyDigitsTail (l : List Char) : Bool := pyDigitsTailAux l false

/-- Core of Python `int()` on a sign-stripped string: a leading digit followed
by digits/underscore groups. Returns the (non-negative) value. -/
def pyIntCore (l : List Char) : Option Int :=
  match l with
  | [] => none
  | c :: rest =>
    if pyDigit c && pyDigitsTail rest then
      some ((digitsValNat (l.filter (fun d => d ≠ '_')) : Nat) : Int)
    else none

/-- Sign handling of Python `int()` (input already whitespace-stripped). -/
def pyIntSigned : List Char → Option Int
  | [] => none
  | c :: rest =>
    if c = '+' then pyIntCore rest
    else if c = '-' then (pyIntCore rest).map (fun n => -n)
    else pyIntCore (c :: rest)

/-- Python `int(s)` on ASCII input: strips whitespace, accepts an optional
sign, then digits (with underscore group separators); `none` models the
`ValueError` raised on anything else. -/
def pyInt (l : List Char) : Option Int := pyIntSigned (pyStrip l)

/-- Python `range(a, b)` as a list of integers (empty when `b ≤ a`). -/
def pyRange (a b : Int) : List Int :=
  (List.range (b - a).toNat).map (fun (i : Nat) => a + (i : Int))

/-- Python substring membership `pat in s` (for non-empty `pat`). -/
def pyInStr (pat : List Char) : List Char → Bool
  | [] => pat = []
  | c :: rest => pat.isPrefixOf (c :: rest) || pyInStr pat rest

/-! ## RangeSelector: `Query.parse_selection_string` (`almaqso/_query.py`) -/

/-- Insert `x` into an ascending duplicate-free list, keeping it ascending and
duplicate-free. -/
def insertSorted (x : Int) : List Int → List Int
  | [] => [x]
  | y :: rest =>
    if x < y then x :: y :: rest
    else if x = y then y :: rest
    else y :: insertSorted x rest

/-- `sorted(list(set(l)))`: the ascending duplicate-free enumeration of the
elements of `l`. -/
def sortedDedup (l : List Int) : List Int := l.foldr insertSorted []

/-- The body of one loop iteration of `parse_selection_string` after
`item = item.strip()`: the values the item contributes to `selected_indices`
and the warning it prints (the code warns on `int()` conversion failures; an
empty item is silently skipped). -/
def processItemCore (item : List Char) : List Int × Option (List Char) :=
  if item = [] then ([], none)
  else if '<' ∈ item then
    match pyInt (item.filter (fun c => c ≠ '<')) with
    | some v => (pyRange 0 v, none)
    | none => ([], some item)
  else if '~' ∈ item then
    match pySplitChar '~' item with
    | [a, b] =>
      match pyInt a, pyInt b with
      | some s, some e => (pyRange s (e + 1), none)
      | _, _ => ([], some item)
    | _ => ([], some item)
  else
    match pyInt item with
    | some v => ([v], none)
    | none => ([], some item)

/-- One loop iteration of `parse_selection_string`: strip, then process. -/
def processItem (item0 : List Char) : List Int × Option (List Char) :=
  processItemCore (pyStrip item0)

/-- `self._cycle.replace(';', ',')`. -/
def standardize (l : List Char) : List Char :=
  l.map (fun c => if c = ';' then ',' else c)

/-- The comma-separated items the parser loops over. -/
def itemsOf (l : List Char) : List (List Char) :=
  pySplitChar ',' (standardize l)

/-- The accumulation loop of `parse_selection_string`: `selected_indices`
(as the list of contributed values, deduplicated only at the end, exactly as
`set` + `sorted(list(...))` does) paired with the printed warnings. -/
def parseFold (items : List (List Char)) : List Int × List (List Char) :=
  items.foldl
    (fun (acc : List Int × List (List Char)) it =>
      (acc.1 ++ (processItem it).1, acc.2 ++ ((processItem it).2).toList))
    ([], [])

/-- `Query.parse_selection_string`, returning the sorted duplicate-free value
list together with the list of items a warning was printed for. An empty
cycle string short-circuits to `[]` (the `not self._cycle` guard). -/
def parse_selection_string (cycle : List Char) : List Int × List (List Char) :=
  if cycle = [] then ([], [])
  else
    (sortedDedup (parseFold (itemsOf cycle)).1, (parseFold (itemsOf cycle)).2)

example : (parse_selection_string (("3,7~9").toList)).1 = [3, 7, 8, 9] := by decide
example : (parse_selection_string (("<4").toList)).1 = [0, 1, 2, 3] := by decide
example : (parse_selection_string (("3;6").toList)).1 = [3, 6] := by decide
example : (parse_selection_string (("<2,5~6,9").toList)).1 = [0, 1, 5, 6, 9] := by
  decide
example : parse_selection_string (("abc,3").toList) = ([3], [("abc").toList]) := by
  decide
example : parse_selection_string (("9~7").toList) = ([], []) := by decide
example : parse_selection_string (("-1").toList) = ([-1], []) := by decide

/-! ## Spec-side item denotation (from spec §4.1, for the refinement claim) -/

/-- A non-empty all-ASCII-digit token. -/
def isDigits (l : List Char) : Bool := !l.isEmpty && l.all pyDigit

/-- The value set the spec assigns to one *valid* item: `N` a single integer,
`A~B` the inclusive range with `A ≤ B`, `<N` the half-open range `[0, N)`;
`none` for any other item text. Written from the spec's words, to be compared
with the code path `processItemCore`. -/
def specItemValues (item : List Char) : Option (List Int) :=
  if item.head? = some '<' then
    if isDigits item.tail then
      some (pyRange 0 ((digitsValNat item.tail : Nat) : Int))
    else none
  else
    match pySplitChar '~' item with
    | [a, b] =>
      if isDigits a && isDigits b && decide (digitsValNat a ≤ digitsValNat b) then
        some (pyRange ((digitsValNat a : Nat) : Int) (((digitsValNat b : Nat) : Int) + 1))
      else none
    | [x] => if isDigits x then some [((digitsValNat x : Nat) : Int)] else none
    | _ => none

/-! ## Lemmas about the Python string primitives -/

theorem pyIntSigned_cons (c : Char) (rest : List Char) :
    pyIntSigned (c :: rest)
      = if c = '+' then pyIntCore rest
        else if c = '-' then (pyIntCore rest).map (fun n => -n)
        else pyIntCore (c :: rest) := rfl

theorem pySplitChar_cons (sep c : Char) (rest : List Char) :
    pySplitChar sep (c :: rest)
      = if c = sep then [] :: pySplitChar sep rest
        else
          match pySplitChar sep rest with
          | [] => [[c]]
          | h :: t => (c :: h) :: t := rfl

theorem dropWhile_eq_self_of_not {p : Char → Bool} {l : List Char}
    (h : ∀ c ∈ l, p c = false) : l.dropWhile p = l := by
  cases l with
  | nil => rfl
  | cons c rest => rw [List.dropWhile_cons, h c (by simp)]; simp

theorem pyStrip_eq_self {l : List Char} (h : ∀ c ∈ l, pyIsSpace c = false) :
    pyStrip l = l := by
  unfold pyStrip
  rw [dropWhile_eq_self_of_not h, dropWhile_eq_self_of_not, List.reverse_reverse]
  intro c hc
  exact h c (List.mem_reverse.mp hc)

theorem mem_of_mem_pyStrip {c : Char} {l : List Char} (h : c ∈ pyStrip l) :
    c ∈ l := by
  unfold pyStrip at h
  rw [List.mem_reverse] at h
  have h2 := (List.dropWhile_sublist _).mem h
  rw [List.mem_reverse] at h2
  exact (List.dropWhile_sublist _).mem h2

theorem pyDigit_ne_space {c : Char} (h : pyDigit c = true) :
    pyIsSpace c = false := by
  unfold pyIsSpace
  have n1 : c ≠ ' ' := by intro e; subst e; exact absurd h (by decide)
  have n2 : c ≠ '\t' := by intro e; subst e; exact absurd h (by decide)
  have n3 : c ≠ '\n' := by intro e; subst e; exact absurd h (by decide)
  have n4 : c ≠ '\r' := by intro e; subst e; exact absurd h (by decide)
  have n5 : c ≠ '\x0b' := by intro e; subst e; exact absurd h (by decide)
  have n6 : c ≠ '\x0c' := by intro e; subst e; exact absurd h (by decide)
  simp [n1, n2, n3, n4, n5, n6]

theorem pyDigit_ne_underscore {c : Char} (h : pyDigit c = true) : c ≠ '_' := by
  intro he
  subst he
  revert h
  decide

theorem pyDigit_ne_lt {c : Char} (h : pyDigit c = true) : c ≠ '<' := by
  intro he
  subst he
  revert h
  decide

theorem pyDigit_ne_tilde {c : Char} (h : pyDigit c = true) : c ≠ '~' := by
  intro he
  subst he
  revert h
  decide

theorem pyDigitsTail_of_digits {l : List Char} (h : ∀ c ∈ l, pyDigit c = true) :
    pyDigitsTail l = true := by
  unfold pyDigitsTail
  induction l with
  | nil => rfl
  | cons c rest ih =>
    have hc : pyDigit c = true := h c (by simp)
    have hu : c ≠ '_' := pyDigit_ne_underscore hc
    rw [pyDigitsTailAux, if_neg hu, Bool.and_eq_true]
    exact ⟨hc, ih (fun d hd => h d (by simp [hd]))⟩

theorem pyInt_of_digits {l : List Char} (hl : isDigits l = true) :
    pyInt l = some ((digitsValNat l : Nat) : Int) := by
  unfold isDigits at hl
  simp only [Bool.and_eq_true, List.all_eq_true, Bool.not_eq_true', List.isEmpty_eq_false_iff_exists_mem] at hl
  obtain ⟨hne, hall⟩ := hl
  have hs : pyStrip l = l :=
    pyStrip_eq_self (fun c hc => pyDigit_ne_space (hall c hc))
  unfold pyInt
  rw [hs]
  cases l with
  | nil => simp at hne
  | cons c rest =>
    have hc : pyDigit c = true := hall c (by simp)
    have hplus : c ≠ '+' := by
      intro he; subst he; revert hc; decide
    have hminus : c ≠ '-' := by
      intro he; subst he; revert hc; decide
    rw [pyIntSigned_cons, if_neg hplus, if_neg hminus]
    unfold pyIntCore
    have htail : pyDigitsTail rest = true :=
      pyDigitsTail_of_digits (fun d hd => hall d (by simp [hd]))
    simp only [hc, htail, Bool.and_self, if_pos]
    have hfil : List.filter (fun d => d ≠ '_') (c :: rest) = c :: rest :=
      List.filter_eq_self.mpr
        (fun d hd => by simp [pyDigit_ne_underscore (hall d hd)])
    rw [hfil]

theorem pyIntCore_nonneg {l : List Char} {v : Int} (h : pyIntCore l = some v) :
    0 ≤ v := by
  unfold pyIntCore at h
  cases l with
  | nil => simp at h
  | cons c rest =>
    by_cases hb : (pyDigit c && pyDigitsTail rest) = true
    · simp only [hb, if_pos] at h
      obtain rfl : _ = v := Option.some.inj h
      positivity
    · simp [hb] at h

theorem pyInt_nonneg {l : List Char} {v : Int} (hm : '-' ∉ l)
    (h : pyInt l = some v) : 0 ≤ v := by
  unfold pyInt at h
  cases hs : pyStrip l with
  | nil => rw [hs] at h; simp [pyIntSigned] at h
  | cons c rest =>
    rw [hs, pyIntSigned_cons] at h
    have hcm : c ≠ '-' := by
      intro he
      subst he
      exact hm (mem_of_mem_pyStrip (hs ▸ (by simp : '-' ∈ '-' :: rest)))
    by_cases hp : c = '+'
    · rw [if_pos hp] at h
      exact pyIntCore_nonneg h
    · rw [if_neg hp, if_neg hcm] at h
      exact pyIntCore_nonneg h

theorem pyRange_mem_iff {a b x : Int} : x ∈ pyRange a b ↔ a ≤ x ∧ x < b := by
  unfold pyRange
  rw [List.mem_map]
  constructor
  · rintro ⟨i, hi, rfl⟩
    rw [List.mem_range] at hi
    omega
  · rintro ⟨h1, h2⟩
    refine ⟨(x - a).toNat, ?_, by omega⟩
    rw [List.mem_range]
    omega

theorem pyRange_mem_lower {a b x : Int} (h : x ∈ pyRange a b) : a ≤ x :=
  (pyRange_mem_iff.mp h).1

/-! ### `pySplitChar` lemmas -/

theorem pySplitChar_ne_nil (sep : Char) (l : List Char) :
    pySplitChar sep l ≠ [] := by
  cases l with
  | nil => simp [pySplitChar]
  | cons c rest =>
    rw [pySplitChar_cons]
    by_cases hc : c = sep
    · simp [hc]
    · rw [if_neg hc]
      cases pySplitChar sep rest <;> simp

theorem pySplitChar_of_not_mem {sep : Char} {l : List Char} (h : sep ∉ l) :
    pySplitChar sep l = [l] := by
  induction l with
  | nil => rfl
  | cons c rest ih =>
    have hc : c ≠ sep := fun e => h (e ▸ List.mem_cons_self c rest)
    rw [pySplitChar_cons, if_neg hc, ih (fun hm => h (List.mem_cons_of_mem c hm))]

theorem pySplitChar_singleton {sep : Char} {l x : List Char}
    (h : pySplitChar sep l = [x]) : l = x ∧ sep ∉ x := by
  induction l generalizing x with
  | nil =>
    obtain rfl : ([] : List Char) = x := by
      have : ([[]] : List (List Char)) = [x] := h
      simpa using this
    simp
  | cons c rest ih =>
    rw [pySplitChar_cons] at h
    by_cases hc : c = sep
    · rw [if_pos hc] at h
      obtain ⟨-, h2⟩ := List.cons.inj h
      exact absurd h2 (pySplitChar_ne_nil sep rest)
    · rw [if_neg hc] at h
      cases hsr : pySplitChar sep rest with
      | nil => exact absurd hsr (pySplitChar_ne_nil sep rest)
      | cons hh tt =>
        rw [hsr] at h
        obtain ⟨h1, h2⟩ := List.cons.inj h
        subst h2
        obtain ⟨hr1, hr2⟩ := ih hsr
        subst hr1
        subst h1
        refine ⟨rfl, ?_⟩
        simp only [List.mem_cons]
        rintro (he | hm)
        · exact hc he.symm
        · exact hr2 hm

theorem pySplitChar_pair {sep : Char} {l a b : List Char}
    (h : pySplitChar sep l = [a, b]) :
    l = a ++ sep :: b ∧ sep ∉ a ∧ sep ∉ b := by
  induction l generalizing a with
  | nil =>
    have : ([[]] : List (List Char)) = [a, b] := h
    simp at this
  | cons c rest ih =>
    rw [pySplitChar_cons] at h
    by_cases hc : c = sep
    · rw [if_pos hc] at h
      obtain ⟨h1, h2⟩ := List.cons.inj h
      obtain ⟨hr1, hr2⟩ := pySplitChar_singleton h2
      subst hr1
      subst hc
      exact ⟨by simp [← h1], by simp [← h1], hr2⟩
    · rw [if_neg hc] at h
      cases hsr : pySplitChar sep rest with
      | nil => exact absurd hsr (pySplitChar_ne_nil sep rest)
      | cons hh tt =>
        rw [hsr] at h
        obtain ⟨h1, h2⟩ := List.cons.inj h
        subst h2
        obtain ⟨hr1, hr2, hr3⟩ := ih hsr
        subst h1
        refine ⟨by rw [List.cons_append, hr1], ?_, hr3⟩
        simp only [List.mem_cons]
        rintro (he | hm)
        · exact hc he.symm
        · exact hr2 hm

theorem pySplitChar_append (sep : Char) (a b : List Char) :
    pySplitChar sep (a ++ sep :: b) = pySplitChar sep a ++ pySplitChar sep b := by
  induction a with
  | nil =>
    rw [List.nil_append, pySplitChar_cons, if_pos rfl]
    rfl
  | cons c a2 ih =>
    rw [List.cons_append, pySplitChar_cons, pySplitChar_cons]
    by_cases hc : c = sep
    · rw [if_pos hc, if_pos hc, ih, List.cons_append]
    · rw [if_neg hc, if_neg hc, ih]
      cases hsa : pySplitChar sep a2 with
      | nil => exact absurd hsa (pySplitChar_ne_nil sep a2)
      | cons hh tt => simp

theorem mem_of_mem_pySplitChar {sep : Char} {l x : List Char}
    (hx : x ∈ pySplitChar sep l) {c : Char} (hc : c ∈ x) : c ∈ l := by
  induction l generalizing x with
  | nil =>
    have : x = [] := by simpa [pySplitChar] using hx
    subst this
    simp at hc
  | cons d rest ih =>
    rw [pySplitChar_cons] at hx
    by_cases hd : d = sep
    · rw [if_pos hd] at hx
      rcases List.mem_cons.mp hx with rfl | hx2
      · simp at hc
      · exact List.mem_cons_of_mem d (ih hx2 hc)
    · rw [if_neg hd] at hx
      cases hsr : pySplitChar sep rest with
      | nil => exact absurd hsr (pySplitChar_ne_nil sep rest)
      | cons hh tt =>
        rw [hsr] at hx
        rcases List.mem_cons.mp hx with rfl | hx2
        · rcases List.mem_cons.mp hc with rfl | hc2
          · exact List.mem_cons_self c rest
          · exact List.mem_cons_of_mem d (ih (hsr ▸ List.mem_cons_self hh tt) hc2)
        · exact List.mem_cons_of_mem d (ih (hsr ▸ List.mem_cons_of_mem hh hx2) hc)

/-! ### `sortedDedup` lemmas -/

theorem mem_insertSorted {x y : Int} {l : List Int} :
    x ∈ insertSorted y l ↔ x = y ∨ x ∈ l := by
  induction l with
  | nil => simp [insertSorted]
  | cons z rest ih =>
    unfold insertSorted
    by_cases h1 : y < z
    · simp [h1]
    · rw [if_neg h1]
      by_cases h2 : y = z
      · subst h2
        rw [if_pos rfl]
        simp only [List.mem_cons]
        tauto
      · rw [if_neg h2]
        simp only [List.mem_cons, ih]
        tauto

theorem mem_sortedDedup {x : Int} {l : List Int} :
    x ∈ sortedDedup l ↔ x ∈ l := by
  induction l with
  | nil => simp [sortedDedup]
  | cons c rest ih =>
    have hstep : sortedDedup (c :: rest) = insertSorted c (sortedDedup rest) := rfl
    rw [hstep, mem_insertSorted, ih, List.mem_cons]

theorem sorted_insertSorted {x : Int} {l : List Int}
    (h : List.Sorted (· < ·) l) : List.Sorted (· < ·) (insertSorted x l) := by
  induction l with
  | nil => simp [insertSorted]
  | cons y rest ih =>
    rw [List.sorted_cons] at h
    obtain ⟨hy, hrest⟩ := h
    unfold insertSorted
    by_cases h1 : x < y
    · rw [if_pos h1, List.sorted_cons]
      refine ⟨?_, List.sorted_cons.mpr ⟨hy, hrest⟩⟩
      intro b hb
      rcases List.mem_cons.mp hb with rfl | hm
      · exact h1
      · exact lt_trans h1 (hy b hm)
    · rw [if_neg h1]
      by_cases h2 : x = y
      · rw [if_pos h2, List.sorted_cons]
        exact ⟨hy, hrest⟩
      · rw [if_neg h2, List.sorted_cons]
        refine ⟨?_, ih hrest⟩
        intro b hb
        rcases mem_insertSorted.mp hb with rfl | hm
        · omega
        · exact hy b hm

theorem sorted_sortedDedup (l : List Int) :
    List.Sorted (· < ·) (sortedDedup l) := by
  induction l with
  | nil => simp [sortedDedup]
  | cons c rest ih => exact sorted_insertSorted ih

/-! ### Item-level lemmas -/

theorem isDigits_ne_nil {l : List Char} (h : isDigits l = true) : l ≠ [] := by
  intro he
  subst he
  simp [isDigits] at h

theorem isDigits_all {l : List Char} (h : isDigits l = true) :
    ∀ c ∈ l, pyDigit c = true := by
  unfold isDigits at h
  simp only [Bool.and_eq_true, List.all_eq_true] at h
  exact fun c hc => h.2 c hc

theorem not_mem_of_digits {c : Char} {l : List Char} (hl : isDigits l = true)
    (hc : pyDigit c = false) : c ∉ l := by
  intro hm
  rw [isDigits_all hl c hm] at hc
  exact absurd hc (by simp)

theorem pyRange_nil {a b : Int} (h : b ≤ a) : pyRange a b = [] := by
  unfold pyRange
  have : (b - a).toNat = 0 := by omega
  rw [this]
  rfl

theorem standardize_sub {c : Char} {l : List Char} (h : c ∈ standardize l) :
    c = ',' ∨ c ∈ l := by
  unfold standardize at h
  rw [List.mem_map] at h
  obtain ⟨d, hd, he⟩ := h
  by_cases hs : d = ';'
  · rw [hs] at he
    simp at he
    exact Or.inl he.symm
  · simp only [if_neg hs] at he
    exact Or.inr (he ▸ hd)

theorem standardize_of_no_semicolon {l : List Char} (h : ';' ∉ l) :
    standardize l = l := by
  unfold standardize
  induction l with
  | nil => rfl
  | cons c rest ih =>
    have hc : c ≠ ';' := fun e => h (e ▸ List.mem_cons_self c rest)
    rw [List.map_cons, if_neg hc, ih (fun hm => h (List.mem_cons_of_mem c hm))]

theorem standardize_idem (l : List Char) :
    standardize (standardize l) = standardize l := by
  unfold standardize
  rw [List.map_map]
  apply List.map_congr_left
  intro c _
  by_cases hs : c = ';'
  · simp [hs]
  · simp [hs]

theorem standardize_nil_iff {l : List Char} : standardize l = [] ↔ l = [] := by
  unfold standardize
  simp

theorem standardize_append (a b : List Char) :
    standardize (a ++ b) = standardize a ++ standardize b := by
  unfold standardize
  rw [List.map_append]

theorem standardize_cons_comma (l : List Char) :
    standardize (',' :: l) = ',' :: standardize l := by
  unfold standardize
  rw [List.map_cons]
  norm_num

theorem flatMap_congr {α β : Type} {l : List α} {f g : α → List β}
    (h : ∀ x ∈ l, f x = g x) : l.flatMap f = l.flatMap g := by
  induction l with
  | nil => rfl
  | cons c rest ih =>
    rw [List.flatMap_cons, List.flatMap_cons, h c (by simp),
      ih (fun x hx => h x (by simp [hx]))]

theorem parseFold_general (items : List (List Char)) :
    ∀ acc : List Int × List (List Char),
      items.foldl
          (fun (acc : List Int × List (List Char)) it =>
            (acc.1 ++ (processItem it).1, acc.2 ++ ((processItem it).2).toList))
          acc
        = (acc.1 ++ items.flatMap (fun it => (processItem it).1),
           acc.2 ++ items.flatMap (fun it => ((processItem it).2).toList)) := by
  induction items with
  | nil => intro acc; simp
  | cons it rest ih =>
    intro acc
    rw [List.foldl_cons, ih]
    simp [List.flatMap_cons]

theorem parseFold_eq (items : List (List Char)) :
    parseFold items
      = (items.flatMap (fun it => (processItem it).1),
         items.flatMap (fun it => ((processItem it).2).toList)) := by
  unfold parseFold
  rw [parseFold_general]
  simp

theorem parse_selection_string_eq {cycle : List Char} (hne : cycle ≠ []) :
    parse_selection_string cycle
      = (sortedDedup ((itemsOf cycle).flatMap (fun it => (processItem it).1)),
         (itemsOf cycle).flatMap (fun it => ((processItem it).2).toList)) := by
  unfold parse_selection_string
  rw [if_neg hne, parseFold_eq]

/-- On a spec-valid item, the code's loop body computes exactly the spec's
value set and prints no warning. -/
theorem processItemCore_of_spec {item : List Char} {vs : List Int}
    (h : specItemValues item = some vs) : processItemCore item = (vs, none) := by
  unfold specItemValues at h
  by_cases hhead : item.head? = some '<'
  · rw [if_pos hhead] at h
    cases item with
    | nil => simp at hhead
    | cons c d =>
      have hc : c = '<' := by simpa using hhead
      subst hc
      simp only [List.tail_cons] at h
      cases hd : isDigits d with
      | false => rw [hd] at h; simp at h
      | true =>
        rw [if_pos hd] at h
        have hvs : vs = pyRange 0 ((digitsValNat d : Nat) : Int) :=
          (Option.some.inj h).symm
        subst hvs
        have hdig := isDigits_all hd
        unfold processItemCore
        rw [if_neg (by simp : ¬('<' :: d = []))]
        rw [if_pos (by simp : '<' ∈ '<' :: d)]
        have hfd : List.filter (fun x => x ≠ '<') d = d :=
          List.filter_eq_self.mpr (fun x hx => by simp [pyDigit_ne_lt (hdig x hx)])
        have hfil : List.filter (fun x => x ≠ '<') ('<' :: d) = d := by
          rw [List.filter_cons, if_neg (by decide)]
          exact hfd
        rw [hfil, pyInt_of_digits hd]
  · rw [if_neg hhead] at h
    cases hsp : pySplitChar '~' item with
    | nil => exact absurd hsp (pySplitChar_ne_nil '~' item)
    | cons a t =>
      cases t with
      | nil =>
        rw [hsp] at h
        have h2 : (if isDigits a then some [((digitsValNat a : Nat) : Int)]
            else none) = some vs := h
        cases hd : isDigits a with
        | false => rw [hd] at h2; simp at h2
        | true =>
          rw [if_pos hd] at h2
          have hvs : vs = [((digitsValNat a : Nat) : Int)] :=
            (Option.some.inj h2).symm
          subst hvs
          obtain ⟨heq, hnt⟩ := pySplitChar_singleton hsp
          subst heq
          unfold processItemCore
          rw [if_neg (isDigits_ne_nil hd)]
          rw [if_neg (not_mem_of_digits hd (by decide : pyDigit '<' = false))]
          rw [if_neg hnt]
          rw [pyInt_of_digits hd]
      | cons b t2 =>
        cases t2 with
        | cons x t3 =>
          rw [hsp] at h
          have h2 : (none : Option (List Int)) = some vs := h
          simp at h2
        | nil =>
          rw [hsp] at h
          have h2 : (if isDigits a && isDigits b
                && decide (digitsValNat a ≤ digitsValNat b) then
              some (pyRange ((digitsValNat a : Nat) : Int)
                (((digitsValNat b : Nat) : Int) + 1))
            else none) = some vs := h
          cases hcond : (isDigits a && isDigits b
              && decide (digitsValNat a ≤ digitsValNat b)) with
          | false => rw [hcond] at h2; simp at h2
          | true =>
            rw [if_pos hcond] at h2
            have hvs : vs = pyRange ((digitsValNat a : Nat) : Int)
                (((digitsValNat b : Nat) : Int) + 1) := (Option.some.inj h2).symm
            subst hvs
            simp only [Bool.and_eq_true] at hcond
            obtain ⟨⟨hda, hdb⟩, -⟩ := hcond
            obtain ⟨hitem, hna, hnb⟩ := pySplitChar_pair hsp
            subst hitem
            unfold processItemCore
            rw [if_neg (List.append_ne_nil_of_right_ne_nil a
              (by simp : ('~' :: b : List Char) ≠ []))]
            have hlt : '<' ∉ a ++ '~' :: b := by
              intro hm
              rcases List.mem_append.mp hm with hm1 | hm2
              · exact not_mem_of_digits hda (by decide) hm1
              · rcases List.mem_cons.mp hm2 with he | hm3
                · exact absurd he (by decide)
                · exact not_mem_of_digits hdb (by decide) hm3
            rw [if_neg hlt]
            rw [if_pos (List.mem_append_right a (List.mem_cons_self '~' b))]
            rw [hsp]
            show (match pyInt a, pyInt b with
              | some s, some e => (pyRange s (e + 1), none)
              | _, _ => ([], some (a ++ '~' :: b)))
              = (pyRange ((digitsValNat a : Nat) : Int)
                  (((digitsValNat b : Nat) : Int) + 1), none)
            rw [pyInt_of_digits hda, pyInt_of_digits hdb]

/-- All values an item free of the minus sign contributes are non-negative. -/
theorem processItemCore_nonneg {item : List Char} (hm : '-' ∉ item) :
    ∀ v ∈ (processItemCore item).1, 0 ≤ v := by
  intro v hv
  unfold processItemCore at hv
  by_cases h0 : item = []
  · rw [if_pos h0] at hv
    simp at hv
  · rw [if_neg h0] at hv
    by_cases h1 : '<' ∈ item
    · rw [if_pos h1] at hv
      cases hi : pyInt (item.filter (fun c => c ≠ '<')) with
      | none => rw [hi] at hv; simp at hv
      | some w =>
        rw [hi] at hv
        exact pyRange_mem_lower hv
    · rw [if_neg h1] at hv
      by_cases h2 : '~' ∈ item
      · rw [if_pos h2] at hv
        cases hsp : pySplitChar '~' item with
        | nil => exact absurd hsp (pySplitChar_ne_nil '~' item)
        | cons a t =>
          cases t with
          | nil => rw [hsp] at hv; simp at hv
          | cons b t2 =>
            cases t2 with
            | cons x t3 => rw [hsp] at hv; simp at hv
            | nil =>
              rw [hsp] at hv
              have hv2 : v ∈ (match pyInt a, pyInt b with
                  | some s, some e => (pyRange s (e + 1), none)
                  | _, _ => (([] : List Int), some item)).1 := hv
              have hva : '-' ∉ a := fun hc =>
                hm (mem_of_mem_pySplitChar (hsp ▸ List.mem_cons_self a [b]) hc)
              cases hia : pyInt a with
              | none =>
                rw [hia] at hv2
                have hv3 : v ∈ ([] : List Int) := by
                  cases hib : pyInt b with
                  | none => rw [hib] at hv2; exact hv2
                  | some e => rw [hib] at hv2; exact hv2
                simp at hv3
              | some s =>
                rw [hia] at hv2
                cases hib : pyInt b with
                | none => rw [hib] at hv2; simp at hv2
                | some e =>
                  rw [hib] at hv2
                  have hs : 0 ≤ s := pyInt_nonneg hva hia
                  exact le_trans hs (pyRange_mem_lower hv2)
      · rw [if_neg h2] at hv
        cases hi : pyInt item with
        | none => rw [hi] at hv; simp at hv
        | some w =>
          rw [hi] at hv
          have : v = w := by simpa using hv
          subst this
          exact pyInt_nonneg hm hi

/-- Each item either contributes values silently, or is warned about and
contributes nothing — the warning carrying the item's own text. -/
theorem processItemCore_cases (x : List Char) :
    (∃ vs : List Int, processItemCore x = (vs, none))
      ∨ processItemCore x = ([], some x) := by
  unfold processItemCore
  by_cases h0 : x = []
  · rw [if_pos h0]
    exact Or.inl ⟨[], rfl⟩
  · rw [if_neg h0]
    by_cases h1 : '<' ∈ x
    · rw [if_pos h1]
      split
      · exact Or.inl ⟨_, rfl⟩
      · exact Or.inr rfl
    · rw [if_neg h1]
      by_cases h2 : '~' ∈ x
      · rw [if_pos h2]
        split
        · split
          · exact Or.inl ⟨_, rfl⟩
          · exact Or.inr rfl
        · exact Or.inr rfl
      · rw [if_neg h2]
        split
        · exact Or.inl ⟨_, rfl⟩
        · exact Or.inr rfl

/-- A warned item is skipped: the warning carries the (stripped) item text
and the item contributes no values. -/
theorem processItemCore_warn {x w : List Char}
    (h : (processItemCore x).2 = some w) :
    w = x ∧ processItemCore x = ([], some x) := by
  rcases processItemCore_cases x with ⟨vs, hv⟩ | hv
  · rw [hv] at h
    simp at h
  · rw [hv] at h
    have h2 : some x = some w := h
    exact ⟨(Option.some.inj h2).symm, hv⟩

/-- The code path on a two-token `~` item built from digit tokens. -/
theorem processItemCore_tilde {a b : List Char} (hda : isDigits a = true)
    (hdb : isDigits b = true) :
    processItemCore (a ++ '~' :: b)
      = (pyRange ((digitsValNat a : Nat) : Int)
          (((digitsValNat b : Nat) : Int) + 1), none) := by
  have hsp : pySplitChar '~' (a ++ '~' :: b) = [a, b] := by
    rw [pySplitChar_append,
      pySplitChar_of_not_mem (not_mem_of_digits hda (by decide)),
      pySplitChar_of_not_mem (not_mem_of_digits hdb (by decide))]
    rfl
  unfold processItemCore
  rw [if_neg (List.append_ne_nil_of_right_ne_nil a
    (by simp : ('~' :: b : List Char) ≠ []))]
  have hlt : '<' ∉ a ++ '~' :: b := by
    intro hm
    rcases List.mem_append.mp hm with hm1 | hm2
    · exact not_mem_of_digits hda (by decide) hm1
    · rcases List.mem_cons.mp hm2 with he | hm3
      · exact absurd he (by decide)
      · exact not_mem_of_digits hdb (by decide) hm3
  rw [if_neg hlt]
  rw [if_pos (List.mem_append_right a (List.mem_cons_self '~' b))]
  rw [hsp]
  show (match pyInt a, pyInt b with
    | some s, some e => (pyRange s (e + 1), none)
    | _, _ => ([], some (a ++ '~' :: b)))
    = (pyRange ((digitsValNat a : Nat) : Int)
        (((digitsValNat b : Nat) : Int) + 1), none)
  rw [pyInt_of_digits hda, pyInt_of_digits hdb]

/-- Values contributed by any item of the parse end up in the result. -/
theorem mem_parse_values {cycle : List Char} (hne : cycle ≠ [])
    {item : List Char} (hmem : item ∈ itemsOf cycle) {v : Int}
    (hv : v ∈ (processItem item).1) :
    v ∈ (parse_selection_string cycle).1 := by
  rw [parse_selection_string_eq hne]
  exact mem_sortedDedup.mpr (List.mem_flatMap.mpr ⟨item, hmem, hv⟩)

/-! ## Claim theorems for the RangeSelector -/

/-- C4: for every valid selection string, `parse_selection_string` returns
the sorted, duplicate-free union of the items' spec value sets; `,` and `;`
are interchangeable separators; and the four concrete examples of the claim
hold. -/
theorem C4_range_parser_sorted_union :
    (∀ cycle : List Char,
        (∀ item ∈ itemsOf cycle,
            pyStrip item = [] ∨ (specItemValues (pyStrip item)).isSome = true) →
          (parse_selection_string cycle).1
              = sortedDedup ((itemsOf cycle).flatMap
                  (fun it => (specItemValues (pyStrip it)).getD []))
            ∧ List.Sorted (· < ·) (parse_selection_string cycle).1
            ∧ (parse_selection_string cycle).1.Nodup)
      ∧ (∀ cycle : List Char,
          parse_selection_string (standardize cycle) = parse_selection_string cycle)
      ∧ (parse_selection_string (("3,7~9").toList)).1 = [3, 7, 8, 9]
      ∧ (parse_selection_string (("<4").toList)).1 = [0, 1, 2, 3]
      ∧ (parse_selection_string (("3;6").toList)).1 = [3, 6]
      ∧ (parse_selection_string (("<2,5~6,9").toList)).1 = [0, 1, 5, 6, 9] := by
  refine ⟨?_, ?_, by decide, by decide, by decide, by decide⟩
  · intro cycle hvalid
    by_cases hc : cycle = []
    · subst hc
      exact ⟨by decide, by decide, by decide⟩
    · rw [parse_selection_string_eq hc]
      refine ⟨?_, sorted_sortedDedup _, (sorted_sortedDedup _).nodup⟩
      show sortedDedup ((itemsOf cycle).flatMap (fun it => (processItem it).1))
        = sortedDedup ((itemsOf cycle).flatMap
            (fun it => (specItemValues (pyStrip it)).getD []))
      congr 1
      apply flatMap_congr
      intro item hmem
      rcases hvalid item hmem with hemp | hsome
      · show (processItemCore (pyStrip item)).1
          = (specItemValues (pyStrip item)).getD []
        rw [hemp]
        decide
      · obtain ⟨vs, hvs⟩ := Option.isSome_iff_exists.mp hsome
        show (processItemCore (pyStrip item)).1
          = (specItemValues (pyStrip item)).getD []
        rw [processItemCore_of_spec hvs, hvs]
        rfl
  · intro cycle
    by_cases hc : cycle = []
    · subst hc
      rfl
    · have hs : standardize cycle ≠ [] := fun he => hc (standardize_nil_iff.mp he)
      unfold parse_selection_string
      rw [if_neg hc, if_neg hs]
      unfold itemsOf
      rw [standardize_idem]

/-- C4 witness: the general part of C4 applied to the concrete valid string
of the claim. -/
theorem C4_witness :
    (∀ item ∈ itemsOf (("<2,5~6,9").toList),
        pyStrip item = [] ∨ (specItemValues (pyStrip item)).isSome = true)
      ∧ (parse_selection_string (("<2,5~6,9").toList)).1
          = sortedDedup ((itemsOf (("<2,5~6,9").toList)).flatMap
              (fun it => (specItemValues (pyStrip it)).getD [])) :=
  ⟨by decide, (C4_range_parser_sorted_union.1 _ (by decide)).1⟩

/-- C5 counterexample: the invalid range item `9~7` (A > B) is skipped, but
no warning is recorded for it, contradicting the claim that every invalid
item is reported as a warning. -/
theorem C5_counterexample_silent_bad_range :
    (parse_selection_string (("9~7").toList)).2 = []
      ∧ (parse_selection_string (("9~7").toList)).1 = [] := by decide

/-- C5 (amended): the parse never raises or aborts, and every warned item is
skipped — the warning records the item's stripped text and the item
contributes no values; every plain token (containing neither `<` nor `~`)
that is not an integer is reported as a warning and skipped, and the
remaining valid items still contribute whatever surrounds them, e.g.
`"abc,3"` yields `[3]` with a warning recorded for `"abc"`. Warnings do not
coincide with the spec's invalid items, however: a range item `A~B` with
`A > B` contributes no values but is skipped silently with no warning, and
a token containing `<` whose text with the `<` characters deleted parses as
an integer — such as `"5<"` — silently contributes `<`-range values. -/
theorem C5_amended_invalid_item_handling :
    (∀ s w : List Char, w ∈ (parse_selection_string s).2 →
        (∃ item ∈ itemsOf s, pyStrip item = w)
          ∧ processItemCore w = ([], some w))
      ∧ (∀ item : List Char, pyStrip item ≠ [] →
          '<' ∉ pyStrip item → '~' ∉ pyStrip item →
          pyInt (pyStrip item) = none →
          processItem item = ([], some (pyStrip item)))
      ∧ (∀ item : List Char, ∀ v : Int, '<' ∈ pyStrip item →
          pyInt ((pyStrip item).filter (fun c => c ≠ '<')) = some v →
          processItem item = (pyRange 0 v, none))
      ∧ parse_selection_string (("abc,3").toList) = ([3], [("abc").toList])
      ∧ parse_selection_string (("5<").toList) = ([0, 1, 2, 3, 4], [])
      ∧ (∀ a b : List Char, isDigits a = true → isDigits b = true →
          digitsValNat b < digitsValNat a →
          parse_selection_string (a ++ '~' :: b) = ([], []))
      ∧ (∀ s t item : List Char, ∀ vs : List Int,
          ';' ∉ item → ',' ∉ item →
          specItemValues (pyStrip item) = some vs →
          ∀ v ∈ vs,
            v ∈ (parse_selection_string (s ++ ',' :: (item ++ ',' :: t))).1) := by
  refine ⟨?_, ?_, ?_, by decide, by decide, ?_, ?_⟩
  · intro s w hw
    by_cases hc : s = []
    · rw [hc] at hw
      simp [parse_selection_string] at hw
    · rw [parse_selection_string_eq hc] at hw
      have hw2 : w ∈ (itemsOf s).flatMap
          (fun it => ((processItem it).2).toList) := hw
      obtain ⟨item, hmem, hwi⟩ := List.mem_flatMap.mp hw2
      have hsome : (processItem item).2 = some w := by
        cases ho : (processItem item).2 with
        | none => rw [ho] at hwi; simp at hwi
        | some u =>
          rw [ho] at hwi
          have hu : w = u := by simpa using hwi
          rw [hu]
      have hwarn := processItemCore_warn (x := pyStrip item) hsome
      obtain ⟨hwx, hpc⟩ := hwarn
      refine ⟨⟨item, hmem, hwx.symm⟩, ?_⟩
      rw [hwx]
      exact hpc
  · intro item hne hlt hnt hint
    show processItemCore (pyStrip item) = ([], some (pyStrip item))
    unfold processItemCore
    rw [if_neg hne, if_neg hlt, if_neg hnt, hint]
  · intro item v hmem hint
    show processItemCore (pyStrip item) = (pyRange 0 v, none)
    unfold processItemCore
    have hne : pyStrip item ≠ [] := by
      intro he
      rw [he] at hmem
      simp at hmem
    rw [if_neg hne, if_pos hmem, hint]
  · intro a b hda hdb hlt
    have hne : a ++ '~' :: b ≠ [] :=
      List.append_ne_nil_of_right_ne_nil a (by simp)
    rw [parse_selection_string_eq hne]
    have hnsemi : ';' ∉ a ++ '~' :: b := by
      intro hm
      rcases List.mem_append.mp hm with h1 | h2
      · exact not_mem_of_digits hda (by decide) h1
      · rcases List.mem_cons.mp h2 with he | h3
        · exact absurd he (by decide)
        · exact not_mem_of_digits hdb (by decide) h3
    have hncomma : ',' ∉ a ++ '~' :: b := by
      intro hm
      rcases List.mem_append.mp hm with h1 | h2
      · exact not_mem_of_digits hda (by decide) h1
      · rcases List.mem_cons.mp h2 with he | h3
        · exact absurd he (by decide)
        · exact not_mem_of_digits hdb (by decide) h3
    have hitems : itemsOf (a ++ '~' :: b) = [a ++ '~' :: b] := by
      unfold itemsOf
      rw [standardize_of_no_semicolon hnsemi, pySplitChar_of_not_mem hncomma]
    rw [hitems]
    have hstrip : pyStrip (a ++ '~' :: b) = a ++ '~' :: b := by
      apply pyStrip_eq_self
      intro c hcm
      rcases List.mem_append.mp hcm with h1 | h2
      · exact pyDigit_ne_space (isDigits_all hda c h1)
      · rcases List.mem_cons.mp h2 with he | h3
        · subst he; decide
        · exact pyDigit_ne_space (isDigits_all hdb c h3)
    have hproc : processItem (a ++ '~' :: b)
        = (pyRange ((digitsValNat a : Nat) : Int)
            (((digitsValNat b : Nat) : Int) + 1), none) := by
      unfold processItem
      rw [hstrip, processItemCore_tilde hda hdb]
    have hrange : pyRange ((digitsValNat a : Nat) : Int)
        (((digitsValNat b : Nat) : Int) + 1) = [] := by
      apply pyRange_nil
      have : (digitsValNat b : Int) < (digitsValNat a : Int) := by
        exact_mod_cast hlt
      omega
    simp [List.flatMap_cons, hproc, hrange, sortedDedup]
  · intro s t item vs hnsemi hncomma hspec v hvmem
    have hin : s ++ ',' :: (item ++ ',' :: t) ≠ [] :=
      List.append_ne_nil_of_right_ne_nil s (by simp)
    apply mem_parse_values hin
    · show item ∈ itemsOf (s ++ ',' :: (item ++ ',' :: t))
      unfold itemsOf
      rw [standardize_append, standardize_cons_comma, standardize_append,
        standardize_cons_comma, standardize_of_no_semicolon hnsemi,
        pySplitChar_append, pySplitChar_append,
        pySplitChar_of_not_mem hncomma]
      simp
    · show v ∈ (processItemCore (pyStrip item)).1
      rw [processItemCore_of_spec hspec]
      exact hvmem

/-- C5 witness: the amended theorem applied at concrete inputs — the plain
non-integer token `abc` is warned and skipped, and the valid item `5~6`
contributes its values even next to it. -/
theorem C5_witness :
    processItem (("abc").toList) = ([], some (("abc").toList))
      ∧ specItemValues (pyStrip (("5~6").toList)) = some [5, 6]
      ∧ (5 : Int) ∈ (parse_selection_string
          ((("1").toList) ++ ',' :: ((("5~6").toList) ++ ',' :: (("abc").toList)))).1 :=
  ⟨C5_amended_invalid_item_handling.2.1 (("abc").toList)
      (by decide) (by decide) (by decide) (by decide),
   by decide,
   C5_amended_invalid_item_handling.2.2.2.2.2.2 _ _ _ [5, 6]
     (by decide) (by decide) (by decide) 5 (by decide)⟩

/-- C6 counterexample: the parser accepts negative literals, so the returned
SelectionSet is not always non-negative: `"-1"` parses to `[-1]`. -/
theorem C6_counterexample_negative_value :
    parse_selection_string (("-1").toList) = ([-1], [])
      ∧ (-1 : Int) ∈ (parse_selection_string (("-1").toList)).1
      ∧ (-1 : Int) < 0 := by decide

/-- C6 (amended): if the selection string contains no minus sign, every
integer in the returned SelectionSet is non-negative (values of `<N` items
are non-negative unconditionally). -/
theorem C6_amended_nonneg_without_minus :
    ∀ cycle : List Char, '-' ∉ cycle →
      ∀ v ∈ (parse_selection_string cycle).1, 0 ≤ v := by
  intro cycle hminus v hv
  by_cases hc : cycle = []
  · rw [hc] at hv
    simp [parse_selection_string] at hv
  · rw [parse_selection_string_eq hc] at hv
    have hv2 : v ∈ (itemsOf cycle).flatMap (fun it => (processItem it).1) :=
      mem_sortedDedup.mp hv
    obtain ⟨item, hmem, hvi⟩ := List.mem_flatMap.mp hv2
    have hmi : '-' ∉ item := by
      intro hm
      have h1 : '-' ∈ standardize cycle := mem_of_mem_pySplitChar hmem hm
      rcases standardize_sub h1 with he | h2
      · exact absurd he (by decide)
      · exact hminus h2
    have hms : '-' ∉ pyStrip item := fun hm => hmi (mem_of_mem_pyStrip hm)
    exact processItemCore_nonneg hms v hvi

/-- C6 witness: the amended theorem applied at a concrete minus-free input. -/
theorem C6_witness :
    (3 : Int) ∈ (parse_selection_string (("3,7~9").toList)).1 ∧ (0 : Int) ≤ 3 :=
  ⟨by decide,
    C6_amended_nonneg_without_minus (("3,7~9").toList) (by decide) 3 (by decide)⟩

/-! ## CalibrationStepSelector: `Process.calibrate` (`almaqso/_api/_process.py`)

`Process.calibrate` reads `f.readlines().copy()[21]` of the generated
`*.scriptForCalibration.py`, extracts the quoted label via
`syscalcheck.split(":")[1].split("'")[1]`, and writes a part script whose
`mysteps` is the 17-element list when the label equals the bandpass/gain
sentinel and the 18-element list otherwise, always with `applyonly = True`. -/

/-- The ASCII apostrophe the label is quoted with. -/
def quoteChar : Char := Char.ofNat 39

/-- The sentinel label compared against the 22nd line. -/
def bandpassSentinel : List Char :=
  ("Application of the bandpass and gain cal tables").toList

/-- The `mysteps` literal written in the short (sentinel) case. -/
def mystepsShort : List Nat :=
  [0, 1, 2, 3, 4, 5, 6, 7, 8, 9, 10, 11, 12, 13, 14, 15, 16]

/-- The `mysteps` literal written in the long (default) case. -/
def mystepsLong : List Nat :=
  [0, 1, 2, 3, 4, 5, 6, 7, 8, 9, 10, 11, 12, 13, 14, 15, 16, 17]

/-- `line.split(":")[1].split("'")[1]`: the quoted label of a script line;
`none` models the `IndexError` raised when the line lacks the colon/quote
structure. -/
def syscalLabel (line : List Char) : Option (List Char) :=
  match pySplitChar ':' line with
  | _ :: part :: _ =>
    match pySplitChar quoteChar part with
    | _ :: lab :: _ => some lab
    | _ => none
  | _ => none

/-- The step selection `Process.calibrate` writes into the part script, as a
function of the generated script's lines (file content given, i.e. the file
exists): the `mysteps` index list and the `applyonly` flag. `none` models the
uncaught `IndexError` when the 22nd line is missing or malformed. -/
def Process_calibrate_selection (scriptLines : List (List Char)) :
    Option (List Nat × Bool) :=
  match scriptLines.get? 21 with
  | none => none
  | some line =>
    match syscalLabel line with
    | none => none
    | some lab =>
      some ((if lab = bandpassSentinel then mystepsShort else mystepsLong), true)

/-- C1: for every script (of an existing control script file) whose 22nd line
carries a quoted label, the selection is the 17-element list `[0..16]` when
the label equals the bandpass/gain sentinel and the 18-element list `[0..17]`
for any other label, with the apply-only flag set in both cases. -/
theorem C1_calibration_step_selection :
    ∀ (scriptLines : List (List Char)) (line lab : List Char),
      scriptLines.get? 21 = some line →
      syscalLabel line = some lab →
      ∃ steps : List Nat,
        Process_calibrate_selection scriptLines = some (steps, true)
          ∧ (lab = bandpassSentinel →
              steps = mystepsShort ∧ steps.length = 17 ∧ steps = List.range 17)
          ∧ (lab ≠ bandpassSentinel →
              steps = mystepsLong ∧ steps.length = 18 ∧ steps = List.range 18) := by
  intro scriptLines line lab h1 h2
  refine ⟨if lab = bandpassSentinel then mystepsShort else mystepsLong, ?_, ?_, ?_⟩
  · unfold Process_calibrate_selection
    rw [h1]
    show (match syscalLabel line with
        | none => none
        | some lab2 =>
          some ((if lab2 = bandpassSentinel then mystepsShort else mystepsLong),
            true))
        = some
            ((if lab = bandpassSentinel then mystepsShort else mystepsLong), true)
    rw [h2]
  · intro he
    rw [if_pos he]
    exact ⟨rfl, by decide, by decide⟩
  · intro he
    rw [if_neg he]
    exact ⟨rfl, by decide, by decide⟩

/-- A 22-line script whose designated line carries the sentinel label. -/
def exampleCalScript : List (List Char) :=
  List.replicate 21 (("# some step").toList)
    ++ [("# 5 : 'Application of the bandpass and gain cal tables'").toList]

/-- C1 witness: the theorem applied to a concrete 22-line script carrying the
sentinel label on its 22nd line. -/
theorem C1_witness :
    (∃ steps : List Nat,
        Process_calibrate_selection exampleCalScript = some (steps, true)
          ∧ (bandpassSentinel = bandpassSentinel →
              steps = mystepsShort ∧ steps.length = 17 ∧ steps = List.range 17)
          ∧ (bandpassSentinel ≠ bandpassSentinel →
              steps = mystepsLong ∧ steps.length = 18 ∧ steps = List.range 18)) :=
  C1_calibration_step_selection exampleCalScript
    (("# 5 : 'Application of the bandpass and gain cal tables'").toList)
    bandpassSentinel (by decide) (by decide)

/-! ## UnitPipeline: `Almaqso._process` (`almaqso/almaqso.py`)

The per-unit stage sequence is embedded as a function of an environment
describing the outcome of each external invocation (the CASA stage wrappers
imported from `._process`, and the filesystem operations). The function
returns the Python return value `(asdmname, ret)` — `Except.error` models an
exception escaping `_process` — together with the trace of engine
invocations made. -/

/-- One external engine invocation of the pipeline. -/
inductive Call where
  | makeScript : Call
  | calib : Call
  | removeTarget : Call
  | imaging (mode : List Char) : Call
  | selfcal : Call
  | exportFits : Call
deriving DecidableEq, Repr

/-- The keyword arguments of `Almaqso._process` that steer control flow. -/
structure Args where
  do_tclean : Bool
  tclean_mode : List (List Char)
  do_selfcal : Bool
  do_export_fits : Bool
  remove_casa_images : Bool
  remove_asdm : Bool
  remove_intermediate : Bool

/-- Outcomes of the external calls `_process` makes: `true` means the call
returned normally, `false` that it raised. `logs` is the final content of
the unit's working directory as seen by the severity scan: file names paired
with their lines. -/
structure Env where
  extract_ok : Bool
  make_script_ok : Bool
  calibrate_ok : Bool
  remove_target_ok : Bool
  imaging_ok : List Char → Bool
  selfcal_ok : Bool
  export_ok : Bool
  rm_dirty_ok : Bool
  remove_asdm_ok : Bool
  remove_intermediate_ok : Bool
  logs : List (List Char × List (List Char))

/-- `"uid___" + (filename.split("_uid___")[1]).replace(".asdm.sdm.tar", "")`;
`none` models the `IndexError` when the separator is absent. -/
def asdmNameOf (filename : List Char) : Option (List Char) :=
  match pySplitOn (("_uid___").toList) filename with
  | _ :: part :: _ =>
    some ((("uid___").toList) ++ pyReplace ((".asdm.sdm.tar").toList) [] part)
  | _ => none

/-- `glob("*.log")` membership: non-hidden names ending in `.log`. -/
def isLogFile (name : List Char) : Bool :=
  match name with
  | [] => false
  | c :: _ => c ≠ '.' && List.isSuffixOf ((".log").toList) name

/-- `"SEVERE" in line`. -/
def lineHasSevere (line : List Char) : Bool := pyInStr (("SEVERE").toList) line

/-- The final severity scan: some `*.log` file has a line containing
`SEVERE`. -/
def severeFound (logs : List (List Char × List (List Char))) : Bool :=
  logs.any (fun fl => isLogFile fl.1 && fl.2.any lineHasSevere)

/-- The `for mode in tclean_mode` imaging loop: one `imaging` invocation per
mode, aborted by the first failing one. Returns the invocations made and
whether all succeeded. -/
def runImaging (ok : List Char → Bool) : List (List Char) → List Call × Bool
  | [] => ([], true)
  | m :: rest =>
    if ok m then
      (Call.imaging m :: (runImaging ok rest).1, (runImaging ok rest).2)
    else ([Call.imaging m], false)

/-- The keys of the locally built `kw_tclean` dict: `weighting`, `robust`,
plus `savemodel` when tclean is enabled. `specmode` is never among them. -/
def kwTcleanKeys (a : Args) : List (List Char) :=
  [("weighting").toList, ("robust").toList]
    ++ (if a.do_tclean then [("savemodel").toList] else [])

/-- The tail of `_process` after target removal, imaging and
self-calibration: FITS export (with the `rmtree("dirty")` inside the same
`try` when `remove_casa_images` is set), then the ASDM/intermediate removal
steps (whose failures are caught and only logged), then the severity scan
deciding the returned flag. -/
def runTail (env : Env) (a : Args) (asdmname : List Char) (tr : List Call) :
    Except Unit (List Char × Bool) × List Call :=
  if a.do_export_fits then
    if !env.export_ok then (Except.ok (asdmname, false), tr ++ [Call.exportFits])
    else if a.remove_casa_images && !env.rm_dirty_ok then
      (Except.ok (asdmname, false), tr ++ [Call.exportFits])
    else (Except.ok (asdmname, !severeFound env.logs), tr ++ [Call.exportFits])
  else (Except.ok (asdmname, !severeFound env.logs), tr)

/-- `Almaqso._process` for a unit whose name extraction succeeded: each stage
runs in a `try` whose handler returns `(asdmname, False)`; the
self-calibration block first evaluates `kw_tclean["specmode"]`, whose
`KeyError` (the key is never present) escapes uncaught. -/
def Almaqso_process_named (env : Env) (a : Args) (n : List Char) :
    Except Unit (List Char × Bool) × List Call :=
  if !env.extract_ok then (Except.ok (n, false), [])
  else if !env.make_script_ok then (Except.ok (n, false), [Call.makeScript])
  else if !env.calibrate_ok then
    (Except.ok (n, false), [Call.makeScript, Call.calib])
  else if !env.remove_target_ok then
    (Except.ok (n, false), [Call.makeScript, Call.calib, Call.removeTarget])
  else
    let tr0 : List Call := [Call.makeScript, Call.calib, Call.removeTarget]
    let ri := if a.do_tclean then runImaging env.imaging_ok a.tclean_mode
              else ([], true)
    if !ri.2 then (Except.ok (n, false), tr0 ++ ri.1)
    else if a.do_selfcal then
      if (kwTcleanKeys a).contains (("specmode").toList) then
        if !env.selfcal_ok then
          (Except.ok (n, false), tr0 ++ ri.1 ++ [Call.selfcal])
        else runTail env a n (tr0 ++ ri.1 ++ [Call.selfcal])
      else (Except.error (), tr0 ++ ri.1)
    else runTail env a n (tr0 ++ ri.1)

/-- `Almaqso._process`: derive the working-directory name from the file name
(an absent `_uid___` separator raises before any stage), then run the staged
pipeline. -/
def Almaqso_process (env : Env) (a : Args) (filename : List Char) :
    Except Unit (List Char × Bool) × List Call :=
  match asdmNameOf filename with
  | none => (Except.error (), [])
  | some n => Almaqso_process_named env a n

/-- The full ordered invocation plan of a unit, given its stage switches. -/
def plannedCalls (a : Args) : List Call :=
  [Call.makeScript, Call.calib, Call.removeTarget]
    ++ (if a.do_tclean then a.tclean_mode.map Call.imaging else [])
    ++ (if a.do_selfcal then [Call.selfcal] else [])
    ++ (if a.do_export_fits then [Call.exportFits] else [])

/-! ### Pipeline lemmas -/

theorem isPrefix_append_left {α : Type} (l : List α) {x y : List α}
    (h : x <+: y) : l ++ x <+: l ++ y := by
  obtain ⟨t, rfl⟩ := h
  exact ⟨t, by simp⟩

theorem isPrefix_append_right {α : Type} {x y : List α} (h : x <+: y)
    (z : List α) : x <+: y ++ z := by
  obtain ⟨t, rfl⟩ := h
  exact ⟨t ++ z, by simp⟩

theorem runImaging_all_ok {ok : List Char → Bool} {ms : List (List Char)}
    (h : ∀ m ∈ ms, ok m = true) :
    runImaging ok ms = (ms.map Call.imaging, true) := by
  induction ms with
  | nil => rfl
  | cons m rest ih =>
    unfold runImaging
    rw [if_pos (h m (by simp)), ih (fun x hx => h x (by simp [hx]))]
    rfl

theorem runImaging_trace_isPrefix (ok : List Char → Bool)
    (ms : List (List Char)) :
    (runImaging ok ms).1 <+: ms.map Call.imaging := by
  induction ms with
  | nil => simp [runImaging]
  | cons m rest ih =>
    unfold runImaging
    by_cases hm : ok m = true
    · rw [if_pos hm]
      rw [List.map_cons]
      obtain ⟨t, ht⟩ := ih
      exact ⟨t, by simp [← ht]⟩
    · rw [if_neg hm]
      exact ⟨rest.map Call.imaging, by simp⟩

theorem runImaging_full_of_ok {ok : List Char → Bool} {ms : List (List Char)}
    (h : (runImaging ok ms).2 = true) :
    (runImaging ok ms).1 = ms.map Call.imaging := by
  induction ms with
  | nil => rfl
  | cons m rest ih =>
    unfold runImaging at h ⊢
    by_cases hm : ok m = true
    · rw [if_pos hm] at h ⊢
      simp only [List.map_cons]
      rw [ih h]
    · rw [if_neg hm] at h
      simp at h

theorem kwTcleanKeys_no_specmode (a : Args) :
    (kwTcleanKeys a).contains (("specmode").toList) = false := by
  unfold kwTcleanKeys
  cases ht : a.do_tclean
  · rw [if_neg (by simp)]
    decide
  · rw [if_pos rfl]
    decide

theorem kwTcleanKeys_no_specmode_true (a : Args) :
    ¬((kwTcleanKeys a).contains (("specmode").toList) = true) := by
  rw [kwTcleanKeys_no_specmode]
  simp

theorem runTail_fst_true {env : Env} {a : Args} {m n : List Char}
    {tr : List Call} (h : (runTail env a m tr).1 = Except.ok (n, true)) :
    severeFound env.logs = false := by
  unfold runTail at h
  split_ifs at h <;> simp_all

theorem runTail_trace (env : Env) (a : Args) (m : List Char) (tr : List Call) :
    (runTail env a m tr).2
      = if a.do_export_fits then tr ++ [Call.exportFits] else tr := by
  unfold runTail
  split_ifs <;> rfl

theorem named_fst_true {env : Env} {a : Args} {m n : List Char}
    (h : (Almaqso_process_named env a m).1 = Except.ok (n, true)) :
    severeFound env.logs = false := by
  unfold Almaqso_process_named at h
  simp only [] at h
  split_ifs at h <;> first
    | exact runTail_fst_true h
    | simp_all

theorem process_fst_true {env : Env} {a : Args} {fn n : List Char}
    (h : (Almaqso_process env a fn).1 = Except.ok (n, true)) :
    severeFound env.logs = false := by
  unfold Almaqso_process at h
  cases hn : asdmNameOf fn with
  | none => rw [hn] at h; simp at h
  | some m =>
    rw [hn] at h
    exact named_fst_true h

/-- The invocation trace of a unit is always an initial segment of the
planned stage sequence: no stage is attempted once an earlier one failed. -/
theorem trace_isPrefix_planned (env : Env) (a : Args) (fn : List Char) :
    (Almaqso_process env a fn).2 <+: plannedCalls a := by
  unfold Almaqso_process
  cases hn : asdmNameOf fn with
  | none => simp
  | some m =>
    show (Almaqso_process_named env a m).2 <+: plannedCalls a
    unfold Almaqso_process_named
    simp only []
    have htr0 : ([Call.makeScript, Call.calib, Call.removeTarget] : List Call)
        <+: plannedCalls a :=
      ⟨(if a.do_tclean then a.tclean_mode.map Call.imaging else [])
        ++ (if a.do_selfcal then [Call.selfcal] else [])
        ++ (if a.do_export_fits then [Call.exportFits] else []),
       by simp [plannedCalls]⟩
    split_ifs
    -- extraction failed: no invocation at all
    · exact List.nil_prefix
    -- script generation failed
    · exact ⟨[Call.calib, Call.removeTarget]
        ++ (if a.do_tclean then a.tclean_mode.map Call.imaging else [])
        ++ (if a.do_selfcal then [Call.selfcal] else [])
        ++ (if a.do_export_fits then [Call.exportFits] else []),
        by simp [plannedCalls]⟩
    -- calibration failed
    · exact ⟨[Call.removeTarget]
        ++ (if a.do_tclean then a.tclean_mode.map Call.imaging else [])
        ++ (if a.do_selfcal then [Call.selfcal] else [])
        ++ (if a.do_export_fits then [Call.exportFits] else []),
        by simp [plannedCalls]⟩
    -- target removal failed
    · exact htr0
    -- do_tclean, imaging aborted mid-loop
    · rename_i htc hri
      show [Call.makeScript, Call.calib, Call.removeTarget]
          ++ (runImaging env.imaging_ok a.tclean_mode).1 <+: plannedCalls a
      have hplan : plannedCalls a
          = [Call.makeScript, Call.calib, Call.removeTarget]
            ++ (a.tclean_mode.map Call.imaging
              ++ ((if a.do_selfcal then [Call.selfcal] else [])
                ++ (if a.do_export_fits then [Call.exportFits] else []))) := by
        simp [plannedCalls, htc, List.append_assoc]
      rw [hplan]
      exact isPrefix_append_left _
        (isPrefix_append_right (runImaging_trace_isPrefix _ _) _)
    -- do_tclean, selfcal, specmode key present (impossible), selfcal failed
    · rename_i hct hsok
      exact absurd hct (kwTcleanKeys_no_specmode_true a)
    -- do_tclean, selfcal, specmode key present (impossible), selfcal ok
    · rename_i hct hsok
      exact absurd hct (kwTcleanKeys_no_specmode_true a)
    -- do_tclean, selfcal requested, specmode KeyError escapes
    · rename_i htc hri hsc hct
      show [Call.makeScript, Call.calib, Call.removeTarget]
          ++ (runImaging env.imaging_ok a.tclean_mode).1 <+: plannedCalls a
      rw [runImaging_full_of_ok (by simpa using hri)]
      have hplan : plannedCalls a
          = [Call.makeScript, Call.calib, Call.removeTarget]
            ++ (a.tclean_mode.map Call.imaging
              ++ ((if a.do_selfcal then [Call.selfcal] else [])
                ++ (if a.do_export_fits then [Call.exportFits] else []))) := by
        simp [plannedCalls, htc, List.append_assoc]
      rw [hplan]
      exact isPrefix_append_left _
        (isPrefix_append_right (List.prefix_refl _) _)
    -- do_tclean, no selfcal: export tail
    · rename_i htc hri hsc
      rw [runTail_trace, runImaging_full_of_ok (by simpa using hri)]
      by_cases hexp : a.do_export_fits = true
      · rw [if_pos hexp]
        exact ⟨[], by simp [plannedCalls, htc, hsc, hexp]⟩
      · rw [if_neg hexp]
        exact ⟨[], by simp [plannedCalls, htc, hsc, hexp]⟩
    -- no tclean: the (![], true).2 condition is false
    · rename_i hfalse
      simp at hfalse
    -- no tclean, selfcal, specmode key present (impossible), selfcal failed
    · rename_i hct hsok
      exact absurd hct (kwTcleanKeys_no_specmode_true a)
    -- no tclean, selfcal, specmode key present (impossible), selfcal ok
    · rename_i hct hsok
      exact absurd hct (kwTcleanKeys_no_specmode_true a)
    -- no tclean, selfcal requested, specmode KeyError escapes
    · exact htr0
    -- no tclean, no selfcal: export tail
    · rename_i htc htrue hsc
      rw [runTail_trace]
      by_cases hexp : a.do_export_fits = true
      · rw [if_pos hexp]
        exact ⟨[], by simp [plannedCalls, htc, hsc, hexp]⟩
      · rw [if_neg hexp]
        exact ⟨[], by simp [plannedCalls, htc, hsc, hexp]⟩

/-! ### Claim theorems for the UnitPipeline -/

/-- C2: a unit in which every enabled stage completed without exception
returns `Success` iff no `*.log` line contains `SEVERE`; one such line
anywhere downgrades the otherwise-clean unit to `Failed`. (Self-calibration
cannot complete without exception — its first statement raises `KeyError` —
so runs satisfying the hypothesis have `do_selfcal` off.) -/
theorem C2_success_iff_no_severe :
    ∀ (env : Env) (a : Args) (filename asdm : List Char),
      asdmNameOf filename = some asdm →
      env.extract_ok = true → env.make_script_ok = true →
      env.calibrate_ok = true → env.remove_target_ok = true →
      (∀ m ∈ a.tclean_mode, env.imaging_ok m = true) →
      env.export_ok = true → env.rm_dirty_ok = true →
      a.do_selfcal = false →
      (Almaqso_process env a filename).1
          = Except.ok (asdm, !severeFound env.logs)
        ∧ ((Almaqso_process env a filename).1 = Except.ok (asdm, true)
            ↔ severeFound env.logs = false) := by
  intro env a fn asdm hn h1 h2 h3 h4 himg h5 h6 hsc
  have hmain : (Almaqso_process env a fn).1
      = Except.ok (asdm, !severeFound env.logs) := by
    unfold Almaqso_process
    rw [hn]
    show (Almaqso_process_named env a asdm).1
      = Except.ok (asdm, !severeFound env.logs)
    unfold Almaqso_process_named
    have hri : (if a.do_tclean then runImaging env.imaging_ok a.tclean_mode
        else ([], true))
        = (if a.do_tclean then a.tclean_mode.map Call.imaging else [], true) := by
      cases ht : a.do_tclean
      · simp
      · simp [runImaging_all_ok himg]
    rw [h1, h2, h3, h4]
    simp only [Bool.not_true, Bool.false_eq_true, if_false, hri, hsc]
    unfold runTail
    rw [h5, h6]
    by_cases hexp : a.do_export_fits = true
    · rw [if_pos hexp]
      simp
    · rw [if_neg hexp]
  refine ⟨hmain, ?_⟩
  rw [hmain]
  cases hs : severeFound env.logs <;> simp [hs]

/-- C3: a calibration failure short-circuits the unit — no imaging,
self-calibration, or FITS-export invocation is made and the unit's outcome
is `Failed` — and, in general, every unit's invocation trace is an initial
segment of the planned stage sequence, so no stage is attempted once an
earlier stage has failed. -/
theorem C3_calibration_failure_short_circuits :
    (∀ (env : Env) (a : Args) (filename asdm : List Char),
        asdmNameOf filename = some asdm →
        env.extract_ok = true → env.make_script_ok = true →
        env.calibrate_ok = false →
          Almaqso_process env a filename
              = (Except.ok (asdm, false), [Call.makeScript, Call.calib])
            ∧ (∀ mode, Call.imaging mode ∉ (Almaqso_process env a filename).2)
            ∧ Call.selfcal ∉ (Almaqso_process env a filename).2
            ∧ Call.exportFits ∉ (Almaqso_process env a filename).2)
      ∧ (∀ (env : Env) (a : Args) (filename : List Char),
          (Almaqso_process env a filename).2 <+: plannedCalls a) := by
  constructor
  · intro env a fn asdm hn h1 h2 hc
    have hmain : Almaqso_process env a fn
        = (Except.ok (asdm, false), [Call.makeScript, Call.calib]) := by
      unfold Almaqso_process
      rw [hn]
      show Almaqso_process_named env a asdm
        = (Except.ok (asdm, false), [Call.makeScript, Call.calib])
      unfold Almaqso_process_named
      rw [h1, h2, hc]
      simp
    refine ⟨hmain, ?_, ?_, ?_⟩
    · intro mode
      rw [hmain]
      simp
    · rw [hmain]
      simp
    · rw [hmain]
      simp
  · exact trace_isPrefix_planned

/-! ### Concrete pipeline fixtures -/

/-- A well-formed downloaded tar name, as produced by the archive. -/
def exampleTar : List Char :=
  ("2019.1.00195.L_uid___A002_Xe230a1_X142.asdm.sdm.tar").toList

/-- The working-directory name `_process` derives from `exampleTar`. -/
def exampleAsdm : List Char := ("uid___A002_Xe230a1_X142").toList

/-- An environment where every external call succeeds and the logs carry no
severity marker. -/
def envAllOk : Env where
  extract_ok := true
  make_script_ok := true
  calibrate_ok := true
  remove_target_ok := true
  imaging_ok := fun _ => true
  selfcal_ok := true
  export_ok := true
  rm_dirty_ok := true
  remove_asdm_ok := true
  remove_intermediate_ok := true
  logs := [((("casa-20240101.log").toList),
    [("2024-01-01 INFO Completed").toList])]

/-- Like `envAllOk` but the log carries a SEVERE line. -/
def envSevere : Env :=
  { envAllOk with
    logs := [((("casa-20240101.log").toList),
      [("2024-01-01 SEVERE Task failed").toList])] }

/-- Like `envAllOk` but the calibration stage raises. -/
def envCalFail : Env := { envAllOk with calibrate_ok := false }

/-- Every optional stage enabled. -/
def argsAll : Args where
  do_tclean := true
  tclean_mode := [("mfs").toList]
  do_selfcal := true
  do_export_fits := true
  remove_casa_images := true
  remove_asdm := true
  remove_intermediate := true

/-- Every optional stage enabled except self-calibration. -/
def argsNoSelfcal : Args := { argsAll with do_selfcal := false }

/-- C2 witness: the theorem applied at a concrete environment whose log
contains one SEVERE line — the exception-free unit is downgraded to
`Failed`. -/
theorem C2_witness :
    severeFound envSevere.logs = true
      ∧ (Almaqso_process envSevere argsNoSelfcal exampleTar).1
          = Except.ok (exampleAsdm, false) := by
  refine ⟨by decide, ?_⟩
  have h := (C2_success_iff_no_severe envSevere argsNoSelfcal exampleTar
    exampleAsdm (by decide) rfl rfl rfl rfl (fun m _ => rfl) rfl rfl rfl).1
  rw [show severeFound envSevere.logs = true from by decide] at h
  exact h

/-- C3 witness: the theorem applied at a concrete run whose calibration
stage fails with imaging, self-calibration and export all requested. -/
theorem C3_witness :
    Almaqso_process envCalFail argsAll exampleTar
        = (Except.ok (exampleAsdm, false), [Call.makeScript, Call.calib])
      ∧ (∀ mode, Call.imaging mode
          ∉ (Almaqso_process envCalFail argsAll exampleTar).2)
      ∧ Call.selfcal ∉ (Almaqso_process envCalFail argsAll exampleTar).2
      ∧ Call.exportFits ∉ (Almaqso_process envCalFail argsAll exampleTar).2 :=
  C3_calibration_failure_short_circuits.1 envCalFail argsAll exampleTar
    exampleAsdm (by decide) rfl rfl rfl

/-! ## SuccessLedger append: `Almaqso._process_wrapper` (`almaqso/almaqso.py`)

`_process_wrapper` downloads, runs `_process`, falls back to the URL's last
path component when no unit name was obtained, and appends the name to
`processing_successful.txt` exactly when the run returned `True`. `dl` is
the download outcome (`none`: `download(url)` raised). The result is the
returned `(asdmname, ret)` pair together with the ledger line appended
(`none`: nothing written). -/
/-- The `try` block of `_process_wrapper`: the `asdmname` obtained (still
`None` when download or `_process` raised) and the `ret` flag. -/
def wrapperTryResult (env : Env) (a : Args) :
    Option (List Char) → Option (List Char) × Bool
  | none => (none, false)
  | some fn =>
    match (Almaqso_process env a fn).1 with
    | Except.error _ => (none, false)
    | Except.ok (n, r) => (some n, r)

/-- The `if not asdmname: asdmname = url.split("/")[-1]` fallback. -/
def wrapperName (url : List Char) : Option (List Char) → List Char
  | none => (pySplitChar '/' url).getLastD []
  | some n => n

def Almaqso_process_wrapper (env : Env) (a : Args) (url : List Char)
    (dl : Option (List Char)) : (List Char × Bool) × Option (List Char) :=
  ((wrapperName url (wrapperTryResult env a dl).1,
      (wrapperTryResult env a dl).2),
   if (wrapperTryResult env a dl).2 then
     some (wrapperName url (wrapperTryResult env a dl).1)
   else none)

/-- C8: a unit identity is appended to the success ledger only when a
download succeeded and `_process` returned that identity with verified
success — in particular the severity scan found no SEVERE marker. -/
theorem C8_ledger_only_verified_success :
    ∀ (env : Env) (a : Args) (url : List Char) (dl : Option (List Char))
      (id : List Char),
      (Almaqso_process_wrapper env a url dl).2 = some id →
      ∃ fn, dl = some fn
        ∧ (Almaqso_process env a fn).1 = Except.ok (id, true)
        ∧ severeFound env.logs = false := by
  intro env a url dl id h
  unfold Almaqso_process_wrapper at h
  cases dl with
  | none =>
    rw [show wrapperTryResult env a none
        = ((none : Option (List Char)), false) from rfl] at h
    simp at h
  | some fn =>
    rw [show wrapperTryResult env a (some fn)
        = (match (Almaqso_process env a fn).1 with
           | Except.error _ => ((none : Option (List Char)), false)
           | Except.ok (n, r) => (some n, r)) from rfl] at h
    cases hres : (Almaqso_process env a fn).1 with
    | error e =>
      rw [hres] at h
      simp at h
    | ok p =>
      obtain ⟨n, r⟩ := p
      rw [hres] at h
      cases hr : r with
      | false =>
        rw [hr] at h
        simp at h
      | true =>
        rw [hr] at h
        have hid : wrapperName url (some n) = id := by simpa using h
        have hn : wrapperName url (some n) = n := rfl
        rw [hn] at hid
        subst hid
        rw [hr] at hres
        exact ⟨fn, rfl, hres, process_fst_true hres⟩

/-- C8 witness: the theorem applied to a concrete successful run, whose
appended ledger line is the unit identity. -/
theorem C8_witness :
    (Almaqso_process_wrapper envAllOk argsNoSelfcal
        (("https://example.org/" ++ "2019.1.00195.L_uid___A002_Xe230a1_X142.asdm.sdm.tar").toList)
        (some exampleTar)).2 = some exampleAsdm
      ∧ ∃ fn, (some exampleTar : Option (List Char)) = some fn
          ∧ (Almaqso_process envAllOk argsNoSelfcal fn).1
              = Except.ok (exampleAsdm, true)
          ∧ severeFound envAllOk.logs = false :=
  ⟨by decide,
    C8_ledger_only_verified_success envAllOk argsNoSelfcal
      (("https://example.org/" ++ "2019.1.00195.L_uid___A002_Xe230a1_X142.asdm.sdm.tar").toList)
      (some exampleTar) exampleAsdm (by decide)⟩

/-! ## Orchestrator: resume filtering and the run summary (`Almaqso.process`)

`Almaqso.process` loads `processing_successful.txt` when
`skip_previous_successful` is set, filters `url_list` by membership of the
derived unit name in the stripped ledger lines (logging one skip notice per
excluded URL), keeps everything when the file is absent, clears the file
when resume is off, then submits one future per remaining URL and builds
`analysis_results` (the final summary) from those futures only. -/

/-- Has this URL's derived unit name been recorded in `successful`? (`false`
also when the name cannot be derived, matching no branch being taken before
the `IndexError`.) -/
def recordedIn (successful : List (List Char)) (url : List Char) : Bool :=
  match asdmNameOf url with
  | some n => decide (n ∈ successful)
  | none => false

/-- The `for url in url_list` filtering loop under resume: partitions the
URLs into the kept list and the skip-notice names, in order; `none` models
the uncaught `IndexError` on a URL without the `_uid___` separator. -/
def skipSplit (successful : List (List Char)) :
    List (List Char) → Option (List (List Char) × List (List Char))
  | [] => some ([], [])
  | url :: rest =>
    match asdmNameOf url with
    | none => none
    | some name =>
      (skipSplit successful rest).map (fun p =>
        if name ∈ successful then (p.1, name :: p.2) else (url :: p.1, p.2))

/-- The resume pre-processing of `Almaqso.process`: given the ledger file
content (`none`: absent), the resume flag and the queried URLs, returns the
kept URLs, the skip-notice names, and the ledger file content afterwards
(`none`: absent/cleared). -/
def filter_previous_successful (ledger : Option (List (List Char)))
    (resume : Bool) (urls : List (List Char)) :
    Option (List (List Char) × List (List Char) × Option (List (List Char))) :=
  if resume then
    match ledger with
    | none => some (urls, [], none)
    | some lines =>
      (skipSplit (lines.map pyStrip) urls).map (fun p => (p.1, p.2, some lines))
  else
    some (urls, [], none)

/-- The summary `Almaqso.process` logs at the end: one `(filename, result)`
entry per submitted future (completion order modelled as submission order),
paired with the skip notices; `outcome` is the per-URL wrapper result (a
future raising is modelled by the caller mapping it to `(url, False)`). -/
def process_summary (ledger : Option (List (List Char))) (resume : Bool)
    (urls : List (List Char)) (outcome : List Char → List Char × Bool) :
    Option (List (List Char × Bool) × List (List Char)) :=
  (filter_previous_successful ledger resume urls).map
    (fun p => (p.1.map outcome, p.2.1))

theorem recordedIn_nil (url : List Char) : recordedIn [] url = false := by
  unfold recordedIn
  cases h : asdmNameOf url <;> simp

theorem skipSplit_eq {successful : List (List Char)} :
    ∀ urls : List (List Char),
      (∀ url ∈ urls, (asdmNameOf url).isSome = true) →
      skipSplit successful urls
        = some (urls.filter (fun u => !(recordedIn successful u)),
            (urls.filter (fun u => recordedIn successful u)).map
              (fun u => (asdmNameOf u).getD [])) := by
  intro urls
  induction urls with
  | nil => intro _; simp [skipSplit]
  | cons url rest ih =>
    intro h
    obtain ⟨name, hname⟩ :=
      Option.isSome_iff_exists.mp (h url (by simp))
    rw [show skipSplit successful (url :: rest)
        = (match asdmNameOf url with
           | none => none
           | some name =>
             (skipSplit successful rest).map (fun p =>
               if name ∈ successful then (p.1, name :: p.2)
               else (url :: p.1, p.2))) from rfl, hname]
    rw [ih (fun u hu => h u (by simp [hu]))]
    have hrec : recordedIn successful url = decide (name ∈ successful) := by
      unfold recordedIn
      rw [hname]
    by_cases hm : name ∈ successful
    · simp [List.filter_cons, hrec, hm, hname]
    · simp [List.filter_cons, hrec, hm]

/-- The resume filter under a present ledger, characterized. -/
theorem filter_resume_eq (lines urls : List (List Char))
    (h : ∀ url ∈ urls, (asdmNameOf url).isSome = true) :
    filter_previous_successful (some lines) true urls
      = some (urls.filter (fun u => !(recordedIn (lines.map pyStrip) u)),
          (urls.filter (fun u => recordedIn (lines.map pyStrip) u)).map
            (fun u => (asdmNameOf u).getD []),
          some lines) := by
  unfold filter_previous_successful
  rw [if_pos rfl]
  show Option.map (fun p => (p.1, p.2, some lines))
      (skipSplit (List.map pyStrip lines) urls)
    = _
  rw [skipSplit_eq urls h]
  rfl

/-- C7: under resume, the pre-processing filter excludes exactly the queried
units whose derived identity appears (stripped) in the ledger, logging one
skip notice per excluded unit; an absent or empty ledger excludes nothing;
with resume off the ledger file is cleared and nothing is excluded. -/
theorem C7_resume_filter :
    (∀ lines urls : List (List Char),
        (∀ url ∈ urls, (asdmNameOf url).isSome = true) →
        filter_previous_successful (some lines) true urls
          = some (urls.filter (fun u => !(recordedIn (lines.map pyStrip) u)),
              (urls.filter (fun u => recordedIn (lines.map pyStrip) u)).map
                (fun u => (asdmNameOf u).getD []),
              some lines))
      ∧ (∀ urls : List (List Char),
          filter_previous_successful none true urls = some (urls, [], none))
      ∧ (∀ urls : List (List Char),
          (∀ url ∈ urls, (asdmNameOf url).isSome = true) →
          filter_previous_successful (some []) true urls
            = some (urls, [], some []))
      ∧ (∀ (ledger : Option (List (List Char))) (urls : List (List Char)),
          filter_previous_successful ledger false urls = some (urls, [], none)) := by
  refine ⟨filter_resume_eq, ?_, ?_, ?_⟩
  · intro urls
    rfl
  · intro urls h
    rw [filter_resume_eq [] urls h]
    have h1 : urls.filter (fun u => !(recordedIn [] u)) = urls :=
      List.filter_eq_self.mpr (fun u _ => by simp [recordedIn_nil])
    have h2 : urls.filter (fun u => recordedIn [] u) = [] := by
      apply List.filter_eq_nil_iff.mpr
      intro u _
      simp [recordedIn_nil]
    simp [h1, h2]
  · intro ledger urls
    rfl

/-! ### Concrete orchestration fixtures -/

/-- The archive URL of the first matching unit. -/
def exampleUrlA : List Char :=
  ("https://almascience.nao.ac.jp/2019.1.00195.L_uid___A002_Xe230a1_X142.asdm.sdm.tar").toList

/-- The archive URL of the second matching unit. -/
def exampleUrlB : List Char :=
  ("https://almascience.nao.ac.jp/2019.1.00195.L_uid___A002_Xe230a1_X143.asdm.sdm.tar").toList

/-- The unit name derived from `exampleUrlB`. -/
def exampleAsdmB : List Char := ("uid___A002_Xe230a1_X143").toList

/-- The resume filter evaluated on the two-unit scenario: the recorded unit
is excluded with one skip notice. -/
theorem filter_two_units_eval :
    filter_previous_successful (some [exampleAsdm]) true [exampleUrlA, exampleUrlB]
      = some ([exampleUrlB], [exampleAsdm], some [exampleAsdm]) := by
  rw [filter_resume_eq [exampleAsdm] [exampleUrlA, exampleUrlB] (by decide)]
  decide

/-- C7 witness: the first conjunct of the theorem applied to two queried
units, one previously recorded — exactly that one is excluded, with one
skip notice, and the ledger is left untouched. -/
theorem C7_witness :
    filter_previous_successful (some [exampleAsdm]) true [exampleUrlA, exampleUrlB]
      = some ([exampleUrlB], [exampleAsdm], some [exampleAsdm]) := by
  rw [C7_resume_filter.1 [exampleAsdm] [exampleUrlA, exampleUrlB] (by decide)]
  decide

/-- C9 counterexample: in the two-unit scenario with one unit already in the
ledger, the final summary has exactly ONE entry (the freshly processed
unit), not two — skipped units never enter `analysis_results`. -/
theorem C9_counterexample_summary_misses_skipped :
    process_summary (some [exampleAsdm]) true [exampleUrlA, exampleUrlB]
        (fun u => (u, true))
        = some ([(exampleUrlB, true)], [exampleAsdm])
      ∧ (process_summary (some [exampleAsdm]) true [exampleUrlA, exampleUrlB]
          (fun u => (u, true))).map (fun s => s.1.length) = some 1 := by
  constructor
  · unfold process_summary
    rw [filter_two_units_eval]
    rfl
  · unfold process_summary
    rw [filter_two_units_eval]
    rfl

/-- C9 (amended): the final summary lists exactly the units submitted for
processing — the queried units not excluded by the resume filter — one entry
with its terminal status per such unit; in the two-unit scenario with one
unit already recorded, one unit is processed, one skip notice is logged, and
the summary lists one entry. -/
theorem C9_amended_summary_lists_processed :
    (∀ (lines urls : List (List Char)) (outcome : List Char → List Char × Bool),
        (∀ url ∈ urls, (asdmNameOf url).isSome = true) →
        process_summary (some lines) true urls outcome
          = some
              ((urls.filter (fun u => !(recordedIn (lines.map pyStrip) u))).map
                 outcome,
               (urls.filter (fun u => recordedIn (lines.map pyStrip) u)).map
                 (fun u => (asdmNameOf u).getD [])))
      ∧ process_summary (some [exampleAsdm]) true [exampleUrlA, exampleUrlB]
          (fun u => (u, true))
          = some ([(exampleUrlB, true)], [exampleAsdm]) := by
  constructor
  · intro lines urls outcome h
    unfold process_summary
    rw [filter_resume_eq lines urls h]
    rfl
  · unfold process_summary
    rw [filter_two_units_eval]
    rfl

/-- C9 witness: the general part of the amended theorem applied at the
concrete two-unit scenario. -/
theorem C9_witness :
    process_summary (some [exampleAsdm]) true [exampleUrlA, exampleUrlB]
        (fun u => (u, false))
      = some
          (([exampleUrlA, exampleUrlB].filter
              (fun u => !(recordedIn ([exampleAsdm].map pyStrip) u))).map
             (fun u => (u, false)),
           ([exampleUrlA, exampleUrlB].filter
              (fun u => recordedIn ([exampleAsdm].map pyStrip) u)).map
             (fun u => (asdmNameOf u).getD [])) :=
  C9_amended_summary_lists_processed.1 [exampleAsdm] [exampleUrlA, exampleUrlB]
    (fun u => (u, false)) (by decide)

/-! ## LogAggregator (spec-modelled)

The `_logmgr` module (`initialize_log_listener`, `get_logger_for_subprocess`,
`stop_log_listener`) is not under `src/`; only its callers in
`almaqso/almaqso.py` are. The aggregator is therefore modelled from the
spec (§4.3): producers only ever enqueue records onto a process-safe queue;
one listener drains the queue, appending each record to the destination
file, until it dequeues the shutdown sentinel; `stop()` pushes the sentinel
and waits for the drain, so nothing enqueued before `stop()` is lost.
Concurrency appears as the hypothesis that the queue is an arbitrary
interleaving preserving each producer's enqueue order. -/

/-- A log record tagged with the identity of the producing worker. -/
structure LogRecord where
  pid : Nat
  msg : List Char
deriving DecidableEq, Repr

/-- Modelled from the spec: a queue item is a record or the shutdown
sentinel `stop()` pushes. -/
inductive QItem where
  | entry (r : LogRecord) : QItem
  | sentinel : QItem
deriving DecidableEq, Repr

/-- Modelled from the spec: the listener loop — dequeue and append to the
destination file until the sentinel. -/
def drainLoop : List QItem → List LogRecord → List LogRecord
  | [], file => file
  | QItem.sentinel :: _, file => file
  | QItem.entry r :: rest, file => drainLoop rest (file ++ [r])

/-- Modelled from the spec: `stop()` — push the sentinel, then the listener
drains everything enqueued before it; the result is the destination file. -/
def stopListener (queued : List QItem) (file : List LogRecord) :
    List LogRecord :=
  drainLoop (queued ++ [QItem.sentinel]) file

/-- The records held in a queue segment. -/
def queueRecords (q : List QItem) : List LogRecord :=
  q.filterMap (fun it =>
    match it with
    | QItem.entry r => some r
    | QItem.sentinel => none)

theorem drainLoop_no_sentinel {q : List QItem} (h : QItem.sentinel ∉ q) :
    ∀ file : List LogRecord,
      drainLoop (q ++ [QItem.sentinel]) file = file ++ queueRecords q := by
  induction q with
  | nil => intro file; simp [drainLoop, queueRecords]
  | cons it rest ih =>
    intro file
    cases it with
    | sentinel => exact absurd (List.mem_cons_self _ _) h
    | entry r =>
      rw [List.cons_append,
        show drainLoop (QItem.entry r :: (rest ++ [QItem.sentinel])) file
          = drainLoop (rest ++ [QItem.sentinel]) (file ++ [r]) from rfl,
        ih (fun hm => h (List.mem_cons_of_mem _ hm)) (file ++ [r]),
        show queueRecords (QItem.entry r :: rest) = r :: queueRecords rest from rfl]
      simp

theorem length_eq_sum_filter {l : List LogRecord} {numProducers : Nat}
    (h : ∀ r ∈ l, r.pid < numProducers) :
    l.length = ∑ i in Finset.range numProducers,
      (l.filter (fun r => r.pid = i)).length := by
  induction l with
  | nil => simp
  | cons r rest ih =>
    have hr : r.pid < numProducers := h r (by simp)
    have hrest := ih (fun x hx => h x (by simp [hx]))
    have hsplit : ∀ i : Nat,
        (List.filter (fun x => x.pid = i) (r :: rest)).length
          = (if r.pid = i then 1 else 0)
            + (List.filter (fun x => x.pid = i) rest).length := by
      intro i
      by_cases hi : r.pid = i
      · simp [List.filter_cons, hi]
        omega
      · simp [List.filter_cons, hi]
    calc (r :: rest).length = rest.length + 1 := by simp
      _ = (∑ i in Finset.range numProducers,
            (List.filter (fun x => x.pid = i) rest).length) + 1 := by rw [hrest]
      _ = ∑ i in Finset.range numProducers,
            ((if r.pid = i then 1 else 0)
              + (List.filter (fun x => x.pid = i) rest).length) := by
          rw [Finset.sum_add_distrib]
          have hone : (∑ i in Finset.range numProducers,
              (if r.pid = i then 1 else 0)) = 1 := by
            rw [Finset.sum_ite_eq (Finset.range numProducers) r.pid
              (fun _ => 1)]
            simp [Finset.mem_range.mpr hr]
          omega
      _ = ∑ i in Finset.range numProducers,
            (List.filter (fun x => x.pid = i) (r :: rest)).length := by
          apply Finset.sum_congr rfl
          intro i _
          rw [hsplit i]

/-- C10: for `numProducers` concurrent producers each having enqueued their
`numRecords` records in order (any interleaved arrival order), after
`stop()` the destination file holds all `numProducers * numRecords` records,
and each producer's records appear in their original relative order. -/
theorem C10_aggregator_no_loss_per_producer_order :
    ∀ (numProducers numRecords : Nat) (emit : Nat → List LogRecord)
      (q : List QItem),
      QItem.sentinel ∉ q →
      (∀ r ∈ queueRecords q, r.pid < numProducers) →
      (∀ i < numProducers,
        (queueRecords q).filter (fun r => r.pid = i) = emit i) →
      (∀ i < numProducers, (emit i).length = numRecords) →
      (stopListener q []).length = numProducers * numRecords
        ∧ (∀ i < numProducers,
            (stopListener q []).filter (fun r => r.pid = i) = emit i) := by
  intro numProducers numRecords emit q hs hpid hfil hlen
  have hfile : stopListener q [] = queueRecords q := by
    unfold stopListener
    rw [drainLoop_no_sentinel hs []]
    simp
  constructor
  · rw [hfile, length_eq_sum_filter hpid]
    calc (∑ i in Finset.range numProducers,
          ((queueRecords q).filter (fun r => r.pid = i)).length)
        = ∑ i in Finset.range numProducers, numRecords := by
          apply Finset.sum_congr rfl
          intro i hi
          rw [hfil i (Finset.mem_range.mp hi), hlen i (Finset.mem_range.mp hi)]
      _ = numProducers * numRecords := by
          rw [Finset.sum_const, Finset.card_range, smul_eq_mul]
  · intro i hi
    rw [hfile]
    exact hfil i hi

/-- A concrete interleaved queue from two producers with two records each. -/
def exampleQueue : List QItem :=
  [QItem.entry ⟨0, ("w0 start").toList⟩,
   QItem.entry ⟨1, ("w1 start").toList⟩,
   QItem.entry ⟨1, ("w1 done").toList⟩,
   QItem.entry ⟨0, ("w0 done").toList⟩]

/-- The per-producer emission orders of `exampleQueue`. -/
def exampleEmit : Nat → List LogRecord := fun i =>
  if i = 0 then [⟨0, ("w0 start").toList⟩, ⟨0, ("w0 done").toList⟩]
  else [⟨1, ("w1 start").toList⟩, ⟨1, ("w1 done").toList⟩]

/-- C10 witness: the theorem applied at a concrete 2×2 interleaving. -/
theorem C10_witness :
    (stopListener exampleQueue []).length = 2 * 2
      ∧ (∀ i < 2, (stopListener exampleQueue []).filter
          (fun r => r.pid = i) = exampleEmit i) :=
  C10_aggregator_no_loss_per_producer_order 2 2 exampleEmit exampleQueue
    (by decide) (by decide) (by decide) (by decide)

end Almaqso
